import Mathlib

/-!
Verification of the routing and dispatch core of the `cordiverse/server`
repository (packages/core/src: `body.ts` Request/Response adapter and the
Server routing core).

The embedding follows the source:
* `decodeURIComponent` / the `.replace(/\+/g, ' ')` call in `Route.check`
  are modelled byte-accurately (percent escapes, strict UTF-8 assembly,
  `none` standing for a thrown `URIError`);
* a compiled `path-to-regexp` v8 string pattern is represented by its token
  list (`text` / `:param` / `*wildcard`), and `matchToks` models the
  compiled regular expression's behaviour on a URL (anchored match, greedy
  one-or-more quantifiers, optional trailing slash); the compilation step
  itself belongs to the external `path-to-regexp` dependency, so routes in
  theorems are given directly in compiled form (letter-case options of the
  external compiler are not modelled; no property below involves case);
* the `Response` wrapper, the per-route `server/__route` handler, the
  dispatcher's terminal default and the WebSocket `shouldHandle` logic are
  translated statement by statement.
-/

namespace CordisServer

/-! ### Percent decoding (`decodeURIComponent` model) -/

/-- Numeric value of a hexadecimal digit, `none` on a non-hex character. -/
def hexVal (c : Char) : Option Nat :=
  if ('0' ≤ c ∧ c ≤ '9') then some (c.toNat - 48)
  else if ('A' ≤ c ∧ c ≤ 'F') then some (c.toNat - 55)
  else if ('a' ≤ c ∧ c ≤ 'f') then some (c.toNat - 87)
  else none

/-- One lexical unit of a URI-encoded string: a raw character, or one byte
coming from a `%XX` escape. -/
inductive UriUnit where
  | raw (c : Char)
  | byte (b : Nat)
deriving DecidableEq, Repr

/-- First pass of `decodeURIComponent`: split the character stream into raw
characters and `%XX` escape bytes; `none` models the `URIError` thrown on a
`%` that is not followed by two hexadecimal digits. -/
def uriUnits : List Char → Option (List UriUnit)
  | [] => some []
  | c :: rest =>
    if c = '%' then
      match rest with
      | h :: l :: rest2 =>
        match hexVal h, hexVal l with
        | some hv, some lv => (uriUnits rest2).map (UriUnit.byte (16 * hv + lv) :: ·)
        | _, _ => none
      | _ => none
    else (uriUnits rest).map (UriUnit.raw c :: ·)

/-- Whether a byte is a UTF-8 continuation byte (`10xxxxxx`). -/
def isCont (b : Nat) : Bool := 128 ≤ b ∧ b < 192

/-- Second pass of `decodeURIComponent`: assemble escape bytes into Unicode
scalar values using strict UTF-8 (escaped continuation bytes must follow an
escaped leading byte); raw characters pass through unchanged. `none` models
the `URIError` thrown on an invalid byte sequence. The `fuel` argument only
bounds the recursion; callers pass the unit-list length. -/
def utf8Units : Nat → List UriUnit → Option (List Char)
  | _, [] => some []
  | 0, _ :: _ => none
  | fuel + 1, UriUnit.raw c :: rest => (utf8Units fuel rest).map (c :: ·)
  | fuel + 1, UriUnit.byte b :: rest =>
    if b < 128 then
      (utf8Units fuel rest).map (Char.ofNat b :: ·)
    else if 194 ≤ b ∧ b ≤ 223 then
      match rest with
      | UriUnit.byte b2 :: rest2 =>
        if isCont b2 then
          (utf8Units fuel rest2).map (Char.ofNat ((b - 192) * 64 + (b2 - 128)) :: ·)
        else none
      | _ => none
    else if 224 ≤ b ∧ b ≤ 239 then
      match rest with
      | UriUnit.byte b2 :: UriUnit.byte b3 :: rest2 =>
        if isCont b2 ∧ isCont b3 then
          let v := (b - 224) * 4096 + (b2 - 128) * 64 + (b3 - 128)
          if 2048 ≤ v ∧ ¬(55296 ≤ v ∧ v ≤ 57343) then
            (utf8Units fuel rest2).map (Char.ofNat v :: ·)
          else none
        else none
      | _ => none
    else if 240 ≤ b ∧ b ≤ 244 then
      match rest with
      | UriUnit.byte b2 :: UriUnit.byte b3 :: UriUnit.byte b4 :: rest2 =>
        if isCont b2 ∧ isCont b3 ∧ isCont b4 then
          let v := (b - 240) * 262144 + (b2 - 128) * 4096 + (b3 - 128) * 64 + (b4 - 128)
          if 65536 ≤ v ∧ v ≤ 1114111 then
            (utf8Units fuel rest2).map (Char.ofNat v :: ·)
          else none
        else none
      | _ => none
    else none

/-- Model of `decodeURIComponent`; `none` models a thrown `URIError`. -/
def decodeURIComponent (s : String) : Option String :=
  (uriUnits s.toList).bind fun us =>
    (utf8Units us.length us).map fun cs => ⟨cs⟩

/-- Model of `capture.replace(/\+/g, ' ')` from `Route.check`. -/
def plusToSpace (s : String) : String :=
  ⟨s.toList.map fun c => if c = '+' then ' ' else c⟩

/-- Transformation `Route.check` applies to one captured value:
`decodeURIComponent(capture[index + 1].replace(/\+/g, ' '))`. -/
def decodeParam (s : String) : Option String :=
  decodeURIComponent (plusToSpace s)

/-! ### Compiled path patterns and the matcher

A string path handed to the `Route` constructor is compiled by
`path-to-regexp` v8 into a regular expression plus a key list.  The
compiled form of the patterns in scope here is a sequence of tokens:
literal text, `:name` (compiled to a greedy `([^/]+)` group), and `*name`
(compiled to a greedy match-anything one-or-more group), anchored on both
sides with an optional trailing slash.  `matchToks` models running that
compiled regular expression with `exec` and zipping the key list against
the numbered capture groups. -/

/-- One token of a compiled string pattern. -/
inductive Token where
  | text (s : String)
  | param (name : String)
  | wildcard (name : String)
deriving DecidableEq, Repr

/-- Strip a literal character sequence from the front of the input,
returning the remainder; `none` when the input does not start with it. -/
def stripLit : List Char → List Char → Option (List Char)
  | [], cs => some cs
  | _ :: _, [] => none
  | p :: ps, c :: cs => if p = c then stripLit ps cs else none

/-- Every split of a list into a front part and a back part, front parts
listed from shortest to longest. -/
def splitsAll : List Char → List (List Char × List Char)
  | [] => [([], [])]
  | c :: cs => ([], c :: cs) :: (splitsAll cs).map fun p => (c :: p.1, p.2)

/-- Candidate captures for a `:name` group: non-empty, slash-free front
parts, longest first (the compiled group `([^/]+)` is greedy). -/
def paramSplits (cs : List Char) : List (List Char × List Char) :=
  ((splitsAll cs).filter fun p => ¬p.1.isEmpty ∧ ¬p.1.contains '/').reverse

/-- Candidate captures for a `*name` group: non-empty front parts, longest
first (the compiled group is greedy and matches any character). -/
def wildSplits (cs : List Char) : List (List Char × List Char) :=
  ((splitsAll cs).filter fun p => ¬p.1.isEmpty).reverse

/-- Anchored match of a compiled pattern against a URL, producing the raw
(undecoded) named captures in key order.  The empty-token case models the
pattern's end anchor together with the compiler's default optional
trailing slash. -/
def matchToks : List Token → List Char → Option (List (String × String))
  | [], cs => if cs = [] ∨ cs = ['/'] then some [] else none
  | Token.text s :: toks, cs =>
    match stripLit s.toList cs with
    | some rest => matchToks toks rest
    | none => none
  | Token.param n :: toks, cs =>
    (paramSplits cs).findSome? fun p =>
      (matchToks toks p.2).map ((n, (⟨p.1⟩ : String)) :: ·)
  | Token.wildcard n :: toks, cs =>
    (wildSplits cs).findSome? fun p =>
      (matchToks toks p.2).map ((n, (⟨p.1⟩ : String)) :: ·)

/-! ### Requests, path specifications and `Route.check` -/

/-- The fields of the `Request` wrapper that routing reads: `url` is copied
verbatim from the raw `IncomingMessage.url` (path plus query string, never
parsed), `method` from `IncomingMessage.method`. -/
structure Request where
  url : String
  method : String
deriving DecidableEq, Repr

/-- The `path` argument of a `Route`: a string pattern (kept in compiled
token form, with the compiled key list implicit in the token order) or a
raw regular expression, which the constructor stores without key
extraction; the latter is modelled by its `exec` function returning the
numbered groups of a successful match. -/
inductive PathSpec where
  | pattern (toks : List Token)
  | regexp (exec : String → Option (List String))

/-- The params value produced by `Route.check`: a name-to-value record
when the route was built from a string pattern (`this.keys` set), or the
raw capture array for a regular-expression route.  Either value is truthy
in the source, so a returned `Params` always enters the middleware
branch. -/
inductive Params where
  | named (ps : List (String × String))
  | captures (cs : List String)

/-- Model of `Route.check`: run the compiled matcher against the raw
`req.url`; on no match return `undefined` (`Except.ok none`); for string
patterns decode every captured value with
`decodeURIComponent(value.replace(/\+/g, ' '))`, where a decoding failure
models the `URIError` that propagates out of `check`
(`Except.error ()`). -/
def Route.check (path : PathSpec) (req : Request) : Except Unit (Option Params) :=
  match path with
  | PathSpec.pattern toks =>
    match matchToks toks req.url.toList with
    | none => .ok none
    | some raw =>
      match raw.mapM (fun p => (decodeParam p.2).map fun d => (p.1, d)) with
      | some ps => .ok (some (Params.named ps))
      | none => .error ()
  | PathSpec.regexp exec =>
    match exec req.url with
    | none => .ok none
    | some capture => .ok (some (Params.captures capture))

/-! ### The `Response` wrapper (`body.ts`)

`_res` is the raw `ServerResponse`; only the fields routing observes are
kept: the status code, the status message, and a count of transport
writes, where one transport write is the `writeHead` call of `_end`
followed by either `end()` or the body pipe. -/

/-- Observable state of the raw `ServerResponse` transport object. -/
structure RawRes where
  statusCode : Nat
  statusMessage : String
  writes : Nat
deriving DecidableEq, Repr

/-- State of the `Response` wrapper from `body.ts`.  `bodyInit` is
`_bodyInit` (`none` models both `undefined` and `null`, which the source
treats alike through `isNullable`); `headers` is the `Headers` multimap,
kept as a list of lowercase-key pairs in insertion order. -/
structure Response where
  res : RawRes
  headers : List (String × String)
  bodyInit : Option String
  bodyUsed : Bool
  hasStatus : Bool
  legacyMode : Bool
deriving DecidableEq, Repr

namespace Response

/-- Model of the constructor: fresh private fields and
`_res.statusCode = 404`. -/
def init : Response :=
  { res := { statusCode := 404, statusMessage := "", writes := 0 }
    headers := []
    bodyInit := none
    bodyUsed := false
    hasStatus := false
    legacyMode := false }

/-- The `status` getter. -/
def status (r : Response) : Nat := r.res.statusCode

/-- The `status` setter: writes the raw status code and records that a
status was explicitly assigned. -/
def setStatus (r : Response) (value : Nat) : Response :=
  { r with res := { r.res with statusCode := value }, hasStatus := true }

/-- Model of `Headers.set`: replace any existing value for the
(lowercased) key, appending when absent.  Keys in this development are
already lowercase. -/
def headersSet (hs : List (String × String)) (key value : String) : List (String × String) :=
  if hs.any fun h => h.1 = key then
    hs.map fun h => if h.1 = key then (key, value) else h
  else hs ++ [(key, value)]

/-- Header update on a `Response`. -/
def setHeader (r : Response) (key value : String) : Response :=
  { r with headers := headersSet r.headers key value }

/-- The `body` setter: throws `TypeError('Body already used')` once the
body has been consumed, otherwise stores the value and, when the value is
non-nullable and no status was explicitly assigned, writes raw status 200
(without marking the status as explicitly assigned). -/
def setBody (r : Response) (value : Option String) : Except Unit Response :=
  if r.bodyUsed then .error ()
  else .ok
    { r with
      bodyInit := value
      res :=
        if value.isSome ∧ ¬r.hasStatus then { r.res with statusCode := 200 }
        else r.res }

/-- Model of `_end`: in legacy mode return without touching the transport;
otherwise perform the single transport write (`writeHead` followed by
`end()` for a nullable body, or by marking the body consumed and piping
it). -/
def end' (r : Response) : Response :=
  if r.legacyMode then r
  else
    let r := { r with res := { r.res with writes := r.res.writes + 1 } }
    match r.bodyInit with
    | none => r
    | some _ => { r with bodyUsed := true }

end Response

/-! ### Middleware and the `server/__route` hook-chain

Middleware callbacks are plugin code outside this repository; the core
hands them a params-augmented request view, the `Response` wrapper and a
`next` continuation.  A callback is modelled by the effect it has through
the wrapper's public mutators (a list of operations) followed by how it
ends: returning a fetch `Response` (short-circuiting with a result),
returning `undefined` without calling `next` (short-circuiting with no
result), or `return next()` (delegating and passing the result
through). -/

/-- A fetch-API `Response` value returned by a middleware. -/
structure FetchResponse where
  status : Nat
  headers : List (String × String)
  body : Option String
deriving DecidableEq, Repr

/-- One mutation of the `Response` wrapper through its public API. -/
inductive ResOp where
  | putStatus (n : Nat)
  | putStatusText (s : String)
  | putHeader (key value : String)
  | putBody (b : Option String)

/-- How a middleware callback ends. -/
inductive MwKind where
  | respond (fr : FetchResponse)
  | stop
  | pass

/-- A middleware callback, abstracted over its use of the params view. -/
structure Mw where
  run : Params → List ResOp × MwKind

/-- Apply one wrapper mutation; `setBody` can throw. -/
def applyOp (r : Response) (op : ResOp) : Except Unit Response :=
  match op with
  | ResOp.putStatus n => .ok (r.setStatus n)
  | ResOp.putStatusText s => .ok { r with res := { r.res with statusMessage := s } }
  | ResOp.putHeader k v => .ok (r.setHeader k v)
  | ResOp.putBody b => r.setBody b

/-- Apply a middleware's wrapper mutations in order. -/
def applyOps (r : Response) : List ResOp → Except Unit Response
  | [] => .ok r
  | op :: ops =>
    match applyOp r op with
    | .error e => .error e
    | .ok r' => applyOps r' ops

/-- An `HttpRoute` as it sits in `server.httpRoutes` and in the
`server/__route` hook-chain: the method constraint (`none` is the
method-wildcard `ALL` registration), the compiled path, and the
middleware callback. -/
structure HttpRouteE where
  method : Option String
  path : PathSpec
  callback : Mw

/-- The method guard of the registered handler:
`method && req.method !== method`. -/
def methodBlocked (r : HttpRouteE) (req : Request) : Bool :=
  match r.method with
  | some m => req.method ≠ m
  | none => false

/-- What the handler registered by an `HttpRoute` does with one request
before any middleware effect is applied. -/
inductive HandlerStep where
  | callNext
  | throwErr
  | invoke (params : Params)

/-- Branch of the handler after the method guard: `check` throws, returns
`undefined` (then `next()`), or returns params (then the middleware is
invoked with the params-augmented view). -/
def checkToStep : Except Unit (Option Params) → HandlerStep
  | .error _ => .throwErr
  | .ok none => .callNext
  | .ok (some ps) => .invoke ps

/-- The handler an `HttpRoute` registers in the `server/__route` chain:
`if (method && req.method !== method) return next()`, else branch on
`self.check(req)`. -/
def routeHandlerStep (r : HttpRouteE) (req : Request) : HandlerStep :=
  if methodBlocked r req then .callNext
  else checkToStep (Route.check r.path req)

/-- Outcome of the `server/__route` waterfall: an unhandled throw, or
completion carrying the waterfall's return value, the response state, the
ids of the routes whose middleware ran (in invocation order) and whether
the terminal default executed. -/
inductive RouteOutcome where
  | error
  | done (resp : Option FetchResponse) (res : Response) (invoked : List Nat)
      (reachedDefault : Bool)

/-- The scanning loop of the terminal default: walk `this.httpRoutes`,
testing `route.check(req)` only; a matching method-constrained route adds
its method to the set (insertion-ordered, deduplicated), a matching
wildcard route sets the asterisk flag and breaks. -/
def allowScan : List (Nat × HttpRouteE) → Request → List String →
    Except Unit (List String × Bool)
  | [], _, acc => .ok (acc, false)
  | (_, r) :: rest, req, acc =>
    match Route.check r.path req with
    | .error _ => .error ()
    | .ok none => allowScan rest req acc
    | .ok (some _) =>
      match r.method with
      | some m => allowScan rest req (if m ∈ acc then acc else acc ++ [m])
      | none => .ok (acc, true)

/-- Rendering of the `Allow` value: `[...methods].join(', ')`. -/
def joinMethods (ms : List String) : String := String.intercalate ", " ms

/-- The terminal default of the `server/__route` waterfall: 404 when
nothing matched the path, 204 plus `Allow` for `OPTIONS`, else 405; it
never touches the body. -/
def routeDefault (entries : List (Nat × HttpRouteE)) (req : Request)
    (res : Response) : Except Unit Response :=
  (allowScan entries req []).map fun ma =>
    if ma.1.isEmpty ∧ ma.2 = false then res.setStatus 404
    else if req.method = "OPTIONS" then
      (res.setStatus 204).setHeader "allow" (if ma.2 then "*" else joinMethods ma.1)
    else res.setStatus 405

/-- The `server/__route` waterfall: run the registered route handlers in
`hooks` order; a handler that neither matches nor is method-eligible calls
`next()`; an invoked middleware either short-circuits or delegates; the
terminal default scans `entries` (the live `httpRoutes` list). -/
def runRouteStage (hooks entries : List (Nat × HttpRouteE)) (req : Request)
    (res : Response) : RouteOutcome :=
  match hooks with
  | [] =>
    match routeDefault entries req res with
    | .error _ => .error
    | .ok res' => .done none res' [] true
  | (i, r) :: rest =>
    match routeHandlerStep r req with
    | .callNext => runRouteStage rest entries req res
    | .throwErr => .error
    | .invoke params =>
      match applyOps res (r.callback.run params).1 with
      | .error _ => .error
      | .ok res' =>
        match (r.callback.run params).2 with
        | .respond fr => .done (some fr) res' [i] false
        | .stop => .done none res' [i] false
        | .pass =>
          match runRouteStage rest entries req res' with
          | .error => .error
          | .done resp res'' inv rd => .done resp res'' (i :: inv) rd

/-- The routing-relevant server state: `server.httpRoutes` (the
`DisposableList` the default scans) and the `server/__route` hook-chain
entries contributed by routes.  Each route carries the id of its
registration. -/
structure ServerState where
  httpRoutes : List (Nat × HttpRouteE)
  routeHooks : List (Nat × HttpRouteE)

/-- Constructing an `HttpRoute`: inside one scoped effect, push onto
`server.httpRoutes` and register the handler in the hook-chain (both
appends, so list order is registration order). -/
def ServerState.register (s : ServerState) (id : Nat) (r : HttpRouteE) : ServerState :=
  { httpRoutes := s.httpRoutes ++ [(id, r)]
    routeHooks := s.routeHooks ++ [(id, r)] }

/-- Disposing a route's scope: the effect's teardown removes the list
entry and the hook-chain entry together; removal is stable (the
`DisposableList` and hook list keep the other entries in order). -/
def ServerState.dispose (s : ServerState) (id : Nat) : ServerState :=
  { httpRoutes := s.httpRoutes.filter fun e => e.1 ≠ id
    routeHooks := s.routeHooks.filter fun e => e.1 ≠ id }

/-- Copying a middleware's returned fetch `Response` onto the wrapper in
the `server/request` handler: `res.body = response.body`, then
`res.status = response.status`, then `res.headers.set` per header. -/
def copyFetch (res : Response) (fr : FetchResponse) : Except Unit Response :=
  (res.setBody fr.body).map fun r1 =>
    fr.headers.foldl (fun r h => r.setHeader h.1 h.2) (r1.setStatus fr.status)

/-- One full request: wrap the connection in a fresh `Response`, run the
dispatch (the `server/request` stage whose single built-in handler runs
the `server/__route` waterfall and copies a returned fetch response), and
finally call `res._end()`; a middleware throw rejects the waterfall and
`_end` is never reached. -/
def handleRequest (s : ServerState) (req : Request) : Except Unit Response :=
  match runRouteStage s.routeHooks s.httpRoutes req Response.init with
  | .error => .error ()
  | .done resp res _ _ =>
    match resp with
    | none => .ok res.end'
    | some fr => (copyFetch res fr).map Response.end'

/-! ### WebSocket upgrade handling (`_ws.shouldHandle`) -/

/-- Observable behaviour of a `WsRoute` accept callback on one upgrade:
it calls the factory (accepting the upgrade), returns without calling it
(declining), or throws. -/
inductive WsDecision where
  | accept
  | decline
  | throwErr

/-- A `WsRoute` as it sits in `server.wsRoutes`: compiled path and
optional accept callback, abstracted over its use of the params view. -/
structure WsRouteE where
  path : PathSpec
  handle : Option (Params → WsDecision)

/-- Result of the `shouldHandle` scan over `wsRoutes`: whether any route
accepted (the outer promise resolved `true`; otherwise the upgrade is
rejected and the socket closed), which routes' errors were logged, and
which matching routes' accept callbacks were invoked. -/
structure WsResult where
  accepted : Bool
  logged : List Nat
  invoked : List Nat
deriving DecidableEq, Repr

/-- Model of `_ws.shouldHandle`: every registered `WsRoute` is checked
against the request; a matching route with no callback accepts; a
matching route's callback receives the upgrade and accepts by calling the
factory; a thrown callback error is caught, logged, and counts as that
route declining; the result is `true` exactly when some route accepted.
A `check` throw happens outside the `try` and rejects the scan. -/
def wsScan : List (Nat × WsRouteE) → Request → Except Unit WsResult
  | [], _ => .ok { accepted := false, logged := [], invoked := [] }
  | (i, r) :: rest, req =>
    match Route.check r.path req with
    | .error _ => .error ()
    | .ok none => wsScan rest req
    | .ok (some params) =>
      match r.handle with
      | none => (wsScan rest req).map fun w => { w with accepted := true }
      | some f =>
        match f params with
        | WsDecision.accept =>
          (wsScan rest req).map fun w =>
            { w with accepted := true, invoked := i :: w.invoked }
        | WsDecision.decline =>
          (wsScan rest req).map fun w => { w with invoked := i :: w.invoked }
        | WsDecision.throwErr =>
          (wsScan rest req).map fun w =>
            { w with logged := i :: w.logged, invoked := i :: w.invoked }

/-! ### Spec-side readings (for refinement-style claims)

The following definitions transcribe the specification's wording for the
terminal default ("scan every currently registered HttpRoute, testing its
matcher against the path only, to build the set of methods that would
match this path") so the code's scanning loop can be compared against
them. -/

/-- Whether a route's matcher accepts the request's path (the result of
`route.check(req)` being truthy). -/
def matchesPath (r : HttpRouteE) (req : Request) : Bool :=
  match Route.check r.path req with
  | .ok (some _) => true
  | _ => false

/-- Spec reading: some registered route's matcher accepts the path
(method ignored). -/
def specHasMatch (entries : List (Nat × HttpRouteE)) (req : Request) : Bool :=
  entries.any fun e => matchesPath e.2 req

/-- Spec reading: some method-wildcard route's matcher accepts the path. -/
def specWild (entries : List (Nat × HttpRouteE)) (req : Request) : Bool :=
  entries.any fun e => matchesPath e.2 req && e.2.method.isNone

/-- Insertion into the method set, keeping first-insertion order
(`Set.add`). -/
def addMethod (acc : List String) (m : String) : List String :=
  if m ∈ acc then acc else acc ++ [m]

/-- Spec reading, accumulator form: methods of every method-constrained
route whose matcher accepts the path, in registration order,
deduplicated. -/
def specMethodsAux : List (Nat × HttpRouteE) → Request → List String → List String
  | [], _, acc => acc
  | e :: rest, req, acc =>
    specMethodsAux rest req
      (match e.2.method with
       | some m => if matchesPath e.2 req then addMethod acc m else acc
       | none => acc)

/-- Spec reading: the set of methods that would match this path. -/
def specMethods (entries : List (Nat × HttpRouteE)) (req : Request) : List String :=
  specMethodsAux entries req []

/-- Whether the handler registered by this route would invoke its
middleware on this request (method eligible and matcher accepts). -/
def stepInvokes (r : HttpRouteE) (req : Request) : Bool :=
  match routeHandlerStep r req with
  | HandlerStep.invoke _ => true
  | _ => false

/-- The id of the earliest-registered route whose handler would invoke its
middleware on this request. -/
def firstEligible (hooks : List (Nat × HttpRouteE)) (req : Request) : Option Nat :=
  (hooks.find? fun e => stepInvokes e.2 req).map (·.1)

/-! ### WebSocket spec-side readings -/

/-- The params a `WsRoute`'s matcher extracts, `none` when the route does
not match (or its `check` throws). -/
def wsParams (r : WsRouteE) (req : Request) : Option Params :=
  match Route.check r.path req with
  | .ok (some p) => some p
  | _ => none

/-- Whether this route accepts the upgrade: it matches and either has no
callback or its callback calls the factory. -/
def wsAccepts (r : WsRouteE) (req : Request) : Bool :=
  match wsParams r req, r.handle with
  | some _, none => true
  | some p, some f =>
    match f p with
    | WsDecision.accept => true
    | _ => false
  | none, _ => false

/-- Whether this route's accept callback throws on this upgrade. -/
def wsThrows (r : WsRouteE) (req : Request) : Bool :=
  match wsParams r req, r.handle with
  | some p, some f =>
    match f p with
    | WsDecision.throwErr => true
    | _ => false
  | _, _ => false

/-- Whether this route's accept callback is invoked (route matches and has
a callback). -/
def wsInvoked (r : WsRouteE) (req : Request) : Bool :=
  (wsParams r req).isSome && r.handle.isSome

/-- Whether `Route.check` throws on this request. -/
def checkThrows (p : PathSpec) (req : Request) : Bool :=
  match Route.check p req with
  | .error _ => true
  | _ => false

/-! ## Claims about the `Response` wrapper -/

/-- C8: a fresh `Response` has status 404 until first written; setting a
non-null body before any explicit status assignment promotes the status
to 200; setting the body after an explicit status assignment leaves that
status unchanged; and setting a null body never promotes the status. -/
theorem response_status_promotion_c8 :
    Response.init.status = 404 ∧ Response.init.hasStatus = false
    ∧ (∀ r : Response, ∀ v : String, r.hasStatus = false → r.bodyUsed = false →
        ∃ r', r.setBody (some v) = .ok r' ∧ r'.status = 200)
    ∧ (∀ r : Response, ∀ v : Option String, ∀ n : Nat, r.bodyUsed = false →
        ∃ r', (r.setStatus n).setBody v = .ok r' ∧ r'.status = n)
    ∧ (∀ r : Response, r.bodyUsed = false →
        ∃ r', r.setBody none = .ok r' ∧ r'.status = r.status) := by
  refine ⟨rfl, rfl, ?_, ?_, ?_⟩
  · intro r v hs hb
    refine ⟨{ r with bodyInit := some v, res := { r.res with statusCode := 200 } }, ?_, rfl⟩
    simp [Response.setBody, hb, hs]
  · intro r v n hb
    refine ⟨{ r with res := { r.res with statusCode := n }, hasStatus := true, bodyInit := v }, ?_, rfl⟩
    simp [Response.setBody, Response.setStatus, hb]
  · intro r hb
    refine ⟨{ r with bodyInit := none }, ?_, rfl⟩
    simp [Response.setBody, hb]

/-- Closed instance of the status-promotion claim at a fresh response. -/
theorem response_status_promotion_c8_witness :
    Response.init.hasStatus = false ∧ Response.init.bodyUsed = false ∧
    ∃ r', Response.init.setBody (some ("hi")) = .ok r' ∧ r'.status = 200 :=
  ⟨rfl, rfl, response_status_promotion_c8.2.2.1 Response.init ("hi") rfl rfl⟩

/-- C7: setting the body after it has been consumed by the flush throws
immediately (`TypeError('Body already used')`), and the flushed body and
response state are untouched by the failed attempt. -/
theorem body_reuse_error_c7 :
    (∀ r : Response, ∀ v : Option String, r.bodyUsed = true →
        r.setBody v = .error ())
    ∧ (∀ r : Response, ∀ b : String, r.bodyInit = some b → r.legacyMode = false →
        r.end'.bodyUsed = true
        ∧ r.end'.bodyInit = some b
        ∧ r.end'.status = r.status
        ∧ ∀ v : Option String, r.end'.setBody v = .error ()) := by
  constructor
  · intro r v hu
    simp [Response.setBody, hu]
  · intro r b hbody hlegacy
    have hend : r.end' =
        { r with
          res := { r.res with writes := r.res.writes + 1 }
          bodyUsed := true } := by
      simp [Response.end', hlegacy, hbody]
    refine ⟨?_, ?_, ?_, ?_⟩
    · rw [hend]
    · rw [hend]; exact hbody
    · rw [hend]; rfl
    · intro v
      rw [hend]
      simp [Response.setBody]

/-! ### Transport-write accounting

No operation of the wrapper's public mutation API touches the transport;
only `_end` performs a write.  The following lemmas track the write
counter and the legacy flag through the dispatch pipeline. -/

theorem setBody_preserves (r : Response) (v : Option String) (r' : Response)
    (h : r.setBody v = .ok r') :
    r'.res.writes = r.res.writes ∧ r'.legacyMode = r.legacyMode := by
  unfold Response.setBody at h
  split at h
  · exact absurd h (by simp)
  · injection h with h
    subst h
    constructor
    · show (if _ then _ else _ : RawRes).writes = _
      split <;> rfl
    · rfl

theorem applyOp_preserves (r : Response) (op : ResOp) (r' : Response)
    (h : applyOp r op = .ok r') :
    r'.res.writes = r.res.writes ∧ r'.legacyMode = r.legacyMode := by
  cases op with
  | putStatus n => injection h with h; subst h; exact ⟨rfl, rfl⟩
  | putStatusText s => injection h with h; subst h; exact ⟨rfl, rfl⟩
  | putHeader k v => injection h with h; subst h; exact ⟨rfl, rfl⟩
  | putBody b => exact setBody_preserves r b r' h

theorem applyOps_preserves (ops : List ResOp) (r r' : Response)
    (h : applyOps r ops = .ok r') :
    r'.res.writes = r.res.writes ∧ r'.legacyMode = r.legacyMode := by
  induction ops generalizing r with
  | nil => injection h with h; subst h; exact ⟨rfl, rfl⟩
  | cons op ops ih =>
    unfold applyOps at h
    split at h
    · exact absurd h (by simp)
    next r1 heq =>
      obtain ⟨h1, h2⟩ := applyOp_preserves r op r1 heq
      obtain ⟨h3, h4⟩ := ih r1 h
      exact ⟨h3.trans h1, h4.trans h2⟩

theorem headerFold_preserves (hs : List (String × String)) (r : Response) :
    (hs.foldl (fun r h => r.setHeader h.1 h.2) r).res.writes = r.res.writes
    ∧ (hs.foldl (fun r h => r.setHeader h.1 h.2) r).legacyMode = r.legacyMode := by
  induction hs generalizing r with
  | nil => exact ⟨rfl, rfl⟩
  | cons h hs ih => exact ih (r.setHeader h.1 h.2)

theorem routeDefault_preserves (entries : List (Nat × HttpRouteE)) (req : Request)
    (res res' : Response) (h : routeDefault entries req res = .ok res') :
    res'.res.writes = res.res.writes ∧ res'.legacyMode = res.legacyMode := by
  unfold routeDefault at h
  cases heq : allowScan entries req [] with
  | error e => rw [heq] at h; exact absurd h (by simp [Except.map])
  | ok ma =>
    rw [heq] at h
    simp only [Except.map] at h
    injection h with h
    subst h
    split
    · exact ⟨rfl, rfl⟩
    · split
      · exact ⟨rfl, rfl⟩
      · exact ⟨rfl, rfl⟩

theorem runRouteStage_preserves (hooks entries : List (Nat × HttpRouteE))
    (req : Request) (res : Response) (resp : Option FetchResponse)
    (res' : Response) (inv : List Nat) (rd : Bool)
    (h : runRouteStage hooks entries req res = .done resp res' inv rd) :
    res'.res.writes = res.res.writes ∧ res'.legacyMode = res.legacyMode := by
  induction hooks generalizing res resp res' inv rd with
  | nil =>
    unfold runRouteStage at h
    split at h
    · exact absurd h (by simp)
    next r1 heq =>
      injection h with _ h2 _ _
      subst h2
      exact routeDefault_preserves entries req res r1 heq
  | cons e rest ih =>
    unfold runRouteStage at h
    split at h
    · exact ih res resp res' inv rd h
    · exact absurd h (by simp)
    next params =>
      split at h
      · exact absurd h (by simp)
      next res1 hops =>
        have hpre := applyOps_preserves _ res res1 hops
        split at h
        · injection h with _ h2 _ _
          subst h2
          exact hpre
        · injection h with _ h2 _ _
          subst h2
          exact hpre
        · split at h
          · exact absurd h (by simp)
          next resp2 res2 inv2 rd2 heq2 =>
            injection h with _ h2 _ _
            subst h2
            obtain ⟨a1, a2⟩ := ih res1 resp2 res2 inv2 rd2 heq2
            exact ⟨a1.trans hpre.1, a2.trans hpre.2⟩

theorem copyFetch_preserves (res : Response) (fr : FetchResponse) (r' : Response)
    (h : copyFetch res fr = .ok r') :
    r'.res.writes = res.res.writes ∧ r'.legacyMode = res.legacyMode := by
  unfold copyFetch at h
  cases heq : res.setBody fr.body with
  | error e => rw [heq] at h; exact absurd h (by simp [Except.map])
  | ok r1 =>
    rw [heq] at h
    simp only [Except.map] at h
    injection h with h
    subst h
    have h1 := setBody_preserves res fr.body r1 heq
    have h2 := headerFold_preserves fr.headers (r1.setStatus fr.status)
    exact ⟨h2.1.trans h1.1, h2.2.trans h1.2⟩

theorem end_writes (r : Response) (h : r.legacyMode = false) :
    r.end'.res.writes = r.res.writes + 1 := by
  unfold Response.end'
  rw [h]
  simp only [Bool.false_eq_true, if_false]
  split <;> rfl

/-- C6 counterexample: `_end` has no idempotence guard, so invoking
finalization from a second code path performs a second transport write
(two `writeHead` calls), refuting the claim's "exactly once even if
finalization is invoked from multiple code paths". -/
theorem end_twice_writes_twice_c6_cex :
    Response.init.end'.end'.res.writes = 2 ∧ ¬ Response.init.end'.end'.res.writes = 1 := by
  constructor
  · rfl
  · decide

/-- C6 amended: finalization is invoked from exactly one code path — the
`request` listener calls `res._end()` once after the dispatch waterfall
settles — so for every request whose dispatch completes (no middleware
throw), exactly one transport write occurs, whichever handler
short-circuited; `_end` itself carries no reentrancy guard. -/
theorem single_flush_amended_c6 (s : ServerState) (req : Request) (res : Response)
    (h : handleRequest s req = .ok res) : res.res.writes = 1 := by
  unfold handleRequest at h
  split at h
  · exact absurd h (by simp)
  next resp res1 inv rd heq =>
    have hpre := runRouteStage_preserves s.routeHooks s.httpRoutes req Response.init
      resp res1 inv rd heq
    have hw : res1.res.writes = 0 := hpre.1
    have hl : res1.legacyMode = false := hpre.2
    split at h
    · injection h with h
      subst h
      rw [end_writes res1 hl, hw]
    next fr =>
      cases hcf : copyFetch res1 fr with
      | error e => rw [hcf] at h; exact absurd h (by simp [Except.map])
      | ok r2 =>
        rw [hcf] at h
        simp only [Except.map] at h
        injection h with h
        subst h
        have hcp := copyFetch_preserves res1 fr r2 hcf
        rw [end_writes r2 (hcp.2.trans hl), hcp.1, hw]

/-- The flushed response of a request through an empty route table. -/
def sampleFlushRes : Response :=
  { res := { statusCode := 404, statusMessage := "", writes := 1 }
    headers := []
    bodyInit := none
    bodyUsed := false
    hasStatus := true
    legacyMode := false }

/-- Closed instance of the amended single-flush claim: a request through
an empty route table flushes exactly once. -/
theorem single_flush_amended_c6_witness :
    handleRequest { httpRoutes := [], routeHooks := [] } { url := "/y", method := "GET" }
      = .ok sampleFlushRes
    ∧ sampleFlushRes.res.writes = 1 :=
  ⟨rfl, single_flush_amended_c6 { httpRoutes := [], routeHooks := [] }
    { url := "/y", method := "GET" } sampleFlushRes rfl⟩

/-- Closed instance of the body-reuse claim: flush a response carrying a
body, then attempt to set the body again. -/
theorem body_reuse_error_c7_witness :
    ∃ r : Response, r.bodyInit = some ("x") ∧ r.legacyMode = false ∧
      r.end'.bodyUsed = true ∧ ∀ v : Option String, r.end'.setBody v = .error () := by
  refine ⟨{ Response.init with bodyInit := some ("x") }, rfl, rfl, ?_, ?_⟩
  · exact (body_reuse_error_c7.2 _ ("x") rfl rfl).1
  · exact (body_reuse_error_c7.2 _ ("x") rfl rfl).2.2.2

/-! ## Claims about the route handlers and dispatch order -/

/-- C2: the handler registered by a method-constrained `HttpRoute` calls
`next()` whenever the request method differs, independently of the
matcher and middleware; when the method is eligible it branches on
`check`, calling `next()` on no match and invoking the middleware with
the extracted params otherwise. -/
theorem method_guard_c2 (r : HttpRouteE) (req : Request) :
    (∀ m : String, r.method = some m → req.method ≠ m →
        routeHandlerStep r req = HandlerStep.callNext
        ∧ ∀ (i : Nat) (hooks entries : List (Nat × HttpRouteE)) (res : Response),
            runRouteStage ((i, r) :: hooks) entries req res
              = runRouteStage hooks entries req res)
    ∧ (methodBlocked r req = false →
        routeHandlerStep r req = checkToStep (Route.check r.path req)
        ∧ (Route.check r.path req = .ok none →
            routeHandlerStep r req = HandlerStep.callNext)
        ∧ ∀ ps, Route.check r.path req = .ok (some ps) →
            routeHandlerStep r req = HandlerStep.invoke ps) := by
  constructor
  · intro m hm hne
    have hblocked : methodBlocked r req = true := by
      unfold methodBlocked
      rw [hm]
      simp [hne]
    have hstep : routeHandlerStep r req = HandlerStep.callNext := by
      unfold routeHandlerStep
      rw [hblocked]
      rfl
    refine ⟨hstep, ?_⟩
    intro i hooks entries res
    conv_lhs => rw [runRouteStage]
    rw [hstep]
  · intro hfree
    have hstep : routeHandlerStep r req = checkToStep (Route.check r.path req) := by
      unfold routeHandlerStep
      rw [hfree]
      rfl
    refine ⟨hstep, ?_, ?_⟩
    · intro hnone
      rw [hstep, hnone]
      rfl
    · intro ps hsome
      rw [hstep, hsome]
      rfl

/-- Middleware that always delegates to `next`. -/
def mwPass : Mw := { run := fun _ => ([], MwKind.pass) }

/-- A sample `GET /x` route. -/
def sampleGetX : HttpRouteE :=
  { method := some ("GET"), path := PathSpec.pattern [Token.text ("/x")], callback := mwPass }

/-- A sample `POST /x` request. -/
def sampleReqPostX : Request := { url := "/x", method := "POST" }

/-- Closed instance of the method-guard claim: a GET route ignores a POST
request by delegating. -/
theorem method_guard_c2_witness :
    sampleGetX.method = some ("GET")
    ∧ (sampleReqPostX.method = "GET" → False)
    ∧ routeHandlerStep sampleGetX sampleReqPostX = HandlerStep.callNext :=
  ⟨rfl, by decide, ((method_guard_c2 sampleGetX sampleReqPostX).1 ("GET") rfl
    (by decide)).1⟩

/-! ### Dispatch-order lemmas (shared) -/

theorem stage_invoked_head (hooks entries : List (Nat × HttpRouteE))
    (req : Request) (res : Response) (resp : Option FetchResponse)
    (res' : Response) (inv : List Nat) (rd : Bool)
    (h : runRouteStage hooks entries req res = .done resp res' inv rd) :
    inv.head? = firstEligible hooks req := by
  induction hooks generalizing res resp res' inv rd with
  | nil =>
    unfold runRouteStage at h
    split at h
    · exact absurd h (by simp)
    · injection h with _ _ h3 _
      subst h3
      rfl
  | cons e rest ih =>
    obtain ⟨i, r⟩ := e
    unfold runRouteStage at h
    split at h
    next hstep =>
      have hni : stepInvokes r req = false := by
        unfold stepInvokes
        rw [hstep]
      rw [ih res resp res' inv rd h]
      unfold firstEligible
      rw [List.find?_cons_of_neg]
      simp [hni]
    · exact absurd h (by simp)
    next params hstep =>
      have hyi : stepInvokes r req = true := by
        unfold stepInvokes
        rw [hstep]
      have hfe : firstEligible ((i, r) :: rest) req = some i := by
        unfold firstEligible
        rw [List.find?_cons_of_pos]
        · rfl
        · simp [hyi]
      split at h
      · exact absurd h (by simp)
      · split at h
        · injection h with _ _ h3 _
          subst h3
          exact hfe.symm
        · injection h with _ _ h3 _
          subst h3
          exact hfe.symm
        · split at h
          · exact absurd h (by simp)
          · injection h with _ _ h3 _
            subst h3
            exact hfe.symm

theorem stage_invoked_ids (hooks entries : List (Nat × HttpRouteE))
    (req : Request) (res : Response) (resp : Option FetchResponse)
    (res' : Response) (inv : List Nat) (rd : Bool)
    (h : runRouteStage hooks entries req res = .done resp res' inv rd) :
    ∀ j ∈ inv, j ∈ hooks.map (·.1) := by
  induction hooks generalizing res resp res' inv rd with
  | nil =>
    unfold runRouteStage at h
    split at h
    · exact absurd h (by simp)
    · injection h with _ _ h3 _
      subst h3
      intro j hj
      exact absurd hj (by simp)
  | cons e rest ih =>
    obtain ⟨i, r⟩ := e
    unfold runRouteStage at h
    split at h
    · intro j hj
      exact List.mem_cons_of_mem _ (ih res resp res' inv rd h j hj)
    · exact absurd h (by simp)
    · split at h
      · exact absurd h (by simp)
      next res1 hops =>
        split at h
        · injection h with _ _ h3 _
          subst h3
          intro j hj
          simp only [List.mem_singleton] at hj
          subst hj
          exact List.mem_cons_self _ _
        · injection h with _ _ h3 _
          subst h3
          intro j hj
          simp only [List.mem_singleton] at hj
          subst hj
          exact List.mem_cons_self _ _
        · split at h
          · exact absurd h (by simp)
          next resp2 res2 inv2 rd2 heq2 =>
            injection h with _ _ h3 _
            subst h3
            intro j hj
            rcases List.mem_cons.mp hj with hj | hj
            · subst hj
              exact List.mem_cons_self _ _
            · exact List.mem_cons_of_mem _ (ih res1 resp2 res2 inv2 rd2 heq2 j hj)

theorem stage_first_respond (entries : List (Nat × HttpRouteE)) (req : Request)
    (pre : List (Nat × HttpRouteE)) (i : Nat) (r : HttpRouteE)
    (rest : List (Nat × HttpRouteE)) (res : Response)
    (resp : Option FetchResponse) (res' : Response) (inv : List Nat) (rd : Bool)
    (h : runRouteStage (pre ++ (i, r) :: rest) entries req res = .done resp res' inv rd)
    (hpre : ∀ e ∈ pre, stepInvokes e.2 req = false)
    (ps : Params) (hstep : routeHandlerStep r req = HandlerStep.invoke ps)
    (fr : FetchResponse) (hfr : (r.callback.run ps).2 = MwKind.respond fr) :
    resp = some fr ∧ inv = [i] := by
  induction pre generalizing res with
  | nil =>
    simp only [List.nil_append] at h
    unfold runRouteStage at h
    split at h
    next heq => rw [hstep] at heq; cases heq
    next heq => rw [hstep] at heq; cases heq
    next params heq =>
      rw [hstep] at heq
      injection heq with heq
      subst heq
      split at h
      · exact absurd h (by simp)
      · split at h
        next heq2 =>
          rw [hfr] at heq2
          injection heq2 with heq2
          subst heq2
          injection h with h1 _ h3 _
          exact ⟨h1.symm, h3.symm⟩
        next heq2 => rw [hfr] at heq2; cases heq2
        next heq2 => rw [hfr] at heq2; cases heq2
  | cons e pre ih =>
    obtain ⟨j, q⟩ := e
    have hni : stepInvokes q req = false := hpre (j, q) (List.mem_cons_self _ _)
    simp only [List.cons_append] at h
    unfold runRouteStage at h
    split at h
    next heq =>
      exact ih res h (fun e he => hpre e (List.mem_cons_of_mem _ he))
    next heq =>
      exact absurd h (by simp)
    next params heq =>
      exact absurd hni (by unfold stepInvokes; rw [heq]; simp)

/-- C3: registration order is dispatch priority.  In any completed run of
the `server/__route` waterfall, the first middleware invoked is the
earliest-registered route whose method is eligible and whose matcher
accepts the path; and when that route's middleware returns a response, it
alone handles the request (it is the only invoked route and its response
is the waterfall's result), for every request and hence every valid
combination of captured parameters. -/
theorem registration_priority_c3 (hooks entries : List (Nat × HttpRouteE))
    (req : Request) (res : Response) (resp : Option FetchResponse)
    (res' : Response) (inv : List Nat) (rd : Bool)
    (h : runRouteStage hooks entries req res = .done resp res' inv rd) :
    inv.head? = firstEligible hooks req
    ∧ ∀ pre i r rest, hooks = pre ++ (i, r) :: rest →
        (∀ e ∈ pre, stepInvokes e.2 req = false) →
        ∀ ps, routeHandlerStep r req = HandlerStep.invoke ps →
        ∀ fr, (r.callback.run ps).2 = MwKind.respond fr →
        resp = some fr ∧ inv = [i] := by
  refine ⟨stage_invoked_head hooks entries req res resp res' inv rd h, ?_⟩
  intro pre i r rest hsplit hpre ps hstep fr hfr
  subst hsplit
  exact stage_first_respond entries req pre i r rest res resp res' inv rd h hpre
    ps hstep fr hfr

/-- Middleware that responds with a fixed fetch response. -/
def mwRespond (fr : FetchResponse) : Mw := { run := fun _ => ([], MwKind.respond fr) }

/-- A sample response body for the priority scenario. -/
def frFirst : FetchResponse := { status := 200, headers := [], body := some ("first") }

/-- A second sample response body. -/
def frSecond : FetchResponse := { status := 200, headers := [], body := some ("second") }

/-- Two overlapping `GET /x` routes; the earlier responds "first". -/
def overlapHooks : List (Nat × HttpRouteE) :=
  [(0, { method := some ("GET"), path := PathSpec.pattern [Token.text ("/x")],
         callback := mwRespond frFirst }),
   (1, { method := some ("GET"), path := PathSpec.pattern [Token.text ("/x")],
         callback := mwRespond frSecond })]

/-- A `GET /x` request. -/
def sampleReqGetX : Request := { url := "/x", method := "GET" }

/-- Closed instance of the priority claim: with two overlapping GET `/x`
routes, the earlier-registered one handles `GET /x`. -/
theorem registration_priority_c3_witness :
    ∃ res' : Response,
      runRouteStage overlapHooks overlapHooks sampleReqGetX Response.init
        = RouteOutcome.done (some frFirst) res' [0] false
      ∧ [0].head? = firstEligible overlapHooks sampleReqGetX
      ∧ (some frFirst = some frFirst ∧ [0] = [0]) := by
  refine ⟨Response.init, rfl, ?_, ?_⟩
  · exact (registration_priority_c3 overlapHooks overlapHooks sampleReqGetX
      Response.init (some frFirst) Response.init [0] false rfl).1
  · exact (registration_priority_c3 overlapHooks overlapHooks sampleReqGetX
      Response.init (some frFirst) Response.init [0] false rfl).2
      [] 0 _ _ rfl (by intro e he; cases he) (Params.named []) rfl frFirst rfl

/-! ### The terminal default versus the spec-side full scan -/

theorem addMethod_ne_nil (acc : List String) (m : String) : addMethod acc m ≠ [] := by
  unfold addMethod
  split
  next hm =>
    intro hnil
    rw [hnil] at hm
    cases hm
  · simp

theorem allowScan_wild (entries : List (Nat × HttpRouteE)) (req : Request) :
    ∀ acc ms ast, allowScan entries req acc = .ok (ms, ast) →
      ast = specWild entries req := by
  induction entries with
  | nil =>
    intro acc ms ast h
    unfold allowScan at h
    injection h with h
    simp only [Prod.mk.injEq] at h
    rw [← h.2]
    simp [specWild]
  | cons e rest ih =>
    intro acc ms ast h
    unfold allowScan at h
    split at h
    · exact absurd h (by simp)
    next heq =>
      have hm : matchesPath e.2 req = false := by unfold matchesPath; rw [heq]
      rw [ih acc ms ast h]
      simp [specWild, hm]
    next p heq =>
      have hm : matchesPath e.2 req = true := by unfold matchesPath; rw [heq]
      split at h
      next m hmeq =>
        rw [ih _ ms ast h]
        simp [specWild, hm, hmeq]
      next hmeq =>
        injection h with h
        simp only [Prod.mk.injEq] at h
        rw [← h.2]
        simp [specWild, hm, hmeq]

theorem allowScan_none (entries : List (Nat × HttpRouteE)) (req : Request) :
    ∀ acc ms ast, allowScan entries req acc = .ok (ms, ast) →
      ((ms = [] ∧ ast = false) ↔ (acc = [] ∧ specHasMatch entries req = false)) := by
  induction entries with
  | nil =>
    intro acc ms ast h
    unfold allowScan at h
    injection h with h
    simp only [Prod.mk.injEq] at h
    rw [← h.1, ← h.2]
    simp [specHasMatch]
  | cons e rest ih =>
    intro acc ms ast h
    unfold allowScan at h
    split at h
    · exact absurd h (by simp)
    next heq =>
      have hm : matchesPath e.2 req = false := by unfold matchesPath; rw [heq]
      rw [ih acc ms ast h]
      simp [specHasMatch, hm]
    next p heq =>
      have hm : matchesPath e.2 req = true := by unfold matchesPath; rw [heq]
      split at h
      next m hmeq =>
        rw [ih _ ms ast h]
        constructor
        · intro hc
          exact absurd hc.1 (addMethod_ne_nil acc m)
        · intro hc
          rw [specHasMatch, List.any_cons, hm] at hc
          simp at hc
      next hmeq =>
        injection h with h
        simp only [Prod.mk.injEq] at h
        constructor
        · intro hc
          rw [← h.2] at hc
          cases hc.2
        · intro hc
          rw [specHasMatch, List.any_cons, hm] at hc
          simp at hc

theorem allowScan_methods (entries : List (Nat × HttpRouteE)) (req : Request) :
    ∀ acc ms, allowScan entries req acc = .ok (ms, false) →
      ms = specMethodsAux entries req acc := by
  induction entries with
  | nil =>
    intro acc ms h
    unfold allowScan at h
    injection h with h
    simp only [Prod.mk.injEq] at h
    rw [← h.1]
    rfl
  | cons e rest ih =>
    intro acc ms h
    unfold allowScan at h
    split at h
    · exact absurd h (by simp)
    next heq =>
      have hm : matchesPath e.2 req = false := by unfold matchesPath; rw [heq]
      rw [ih acc ms h]
      cases hmm : e.2.method <;> simp [specMethodsAux, hm, hmm]
    next p heq =>
      have hm : matchesPath e.2 req = true := by unfold matchesPath; rw [heq]
      split at h
      next m hmeq =>
        rw [ih _ ms h]
        simp [specMethodsAux, hm, hmeq, addMethod]
      next hmeq =>
        injection h with h
        simp only [Prod.mk.injEq] at h
        cases h.2

/-- C1: the dispatcher's terminal default, reached when no route handler
short-circuits, scans every registered `HttpRoute` testing its matcher
against the path with the method ignored, and then sets status 404 when
no route's matcher accepts the path; status 204 with an `Allow` header
enumerating the matching methods (or `*` when a matching route is
method-wildcard) when the method is `OPTIONS`; and status 405 otherwise —
never setting a body.  The right-hand sides use the spec-side full-scan
definitions (`specHasMatch`, `specWild`, `specMethods`). -/
theorem default_negotiation_c1 (entries : List (Nat × HttpRouteE)) (req : Request)
    (res res' : Response) (h : routeDefault entries req res = .ok res') :
    (specHasMatch entries req = false → res' = res.setStatus 404)
    ∧ (specHasMatch entries req = true → req.method = "OPTIONS" →
        res' = (res.setStatus 204).setHeader ("allow")
          (if specWild entries req then "*" else joinMethods (specMethods entries req)))
    ∧ (specHasMatch entries req = true → req.method ≠ "OPTIONS" →
        res' = res.setStatus 405)
    ∧ res'.bodyInit = res.bodyInit := by
  unfold routeDefault at h
  cases hs : allowScan entries req [] with
  | error e =>
    rw [hs] at h
    exact absurd h (by simp [Except.map])
  | ok ma =>
    obtain ⟨ms, ast⟩ := ma
    rw [hs] at h
    simp only [Except.map] at h
    injection h with h
    subst h
    have hwild := allowScan_wild entries req [] ms ast hs
    have hnone := allowScan_none entries req [] ms ast hs
    refine ⟨?_, ?_, ?_, ?_⟩
    · intro hm
      obtain ⟨h1, h2⟩ := hnone.mpr ⟨rfl, hm⟩
      subst h1 h2
      simp
    · intro hm hopt
      have hcond : ¬(ms.isEmpty = true ∧ ast = false) := by
        intro hc
        have := (hnone.mp ⟨List.isEmpty_iff.mp hc.1, hc.2⟩).2
        rw [hm] at this
        cases this
      rw [if_neg hcond, if_pos hopt]
      rw [← hwild]
      rcases Bool.eq_false_or_eq_true ast with hast | hast
      · subst hast
        rfl
      · subst hast
        rw [allowScan_methods entries req [] ms hs]
        rfl
    · intro hm hopt
      have hcond : ¬(ms.isEmpty = true ∧ ast = false) := by
        intro hc
        have := (hnone.mp ⟨List.isEmpty_iff.mp hc.1, hc.2⟩).2
        rw [hm] at this
        cases this
      rw [if_neg hcond, if_neg hopt]
    · split
      · rfl
      · split <;> rfl

/-- Routes `GET /x` and `POST /x` for the negotiation scenario. -/
def negotiationEntries : List (Nat × HttpRouteE) :=
  [(0, { method := some ("GET"), path := PathSpec.pattern [Token.text ("/x")],
         callback := mwPass }),
   (1, { method := some ("POST"), path := PathSpec.pattern [Token.text ("/x")],
         callback := mwPass })]

/-- An `OPTIONS /x` request. -/
def reqOptionsX : Request := { url := "/x", method := "OPTIONS" }

/-- The default's output for `OPTIONS /x` against GET and POST routes. -/
def negotiationRes : Response :=
  { res := { statusCode := 204, statusMessage := "", writes := 0 }
    headers := [("allow", "GET, POST")]
    bodyInit := none
    bodyUsed := false
    hasStatus := true
    legacyMode := false }

/-- Closed instance of the negotiation claim: `OPTIONS /x` against GET
and POST routes on `/x` yields 204 with `Allow: GET, POST` and no body. -/
theorem default_negotiation_c1_witness :
    routeDefault negotiationEntries reqOptionsX Response.init = .ok negotiationRes
    ∧ specHasMatch negotiationEntries reqOptionsX = true
    ∧ reqOptionsX.method = "OPTIONS"
    ∧ negotiationRes = (Response.init.setStatus 204).setHeader ("allow")
        (if specWild negotiationEntries reqOptionsX then "*"
         else joinMethods (specMethods negotiationEntries reqOptionsX)) :=
  ⟨rfl, rfl, rfl,
    (default_negotiation_c1 negotiationEntries reqOptionsX Response.init
      negotiationRes rfl).2.1 rfl rfl⟩

/-! ### Disposal -/

theorem specMethodsAux_mem (entries : List (Nat × HttpRouteE)) (req : Request) :
    ∀ acc m, m ∈ specMethodsAux entries req acc →
      m ∈ acc ∨ ∃ e ∈ entries, matchesPath e.2 req = true ∧ e.2.method = some m := by
  induction entries with
  | nil =>
    intro acc m hm
    exact Or.inl hm
  | cons e rest ih =>
    intro acc m hm
    unfold specMethodsAux at hm
    rcases hmm : e.2.method with _ | m0
    · simp only [hmm] at hm
      rcases ih acc m hm with hin | ⟨e', he', hmt, hme⟩
      · exact Or.inl hin
      · exact Or.inr ⟨e', List.mem_cons_of_mem _ he', hmt, hme⟩
    · simp only [hmm] at hm
      by_cases hmt : matchesPath e.2 req = true
      · rw [if_pos hmt] at hm
        rcases ih _ m hm with hin | ⟨e', he', hmt', hme⟩
        · unfold addMethod at hin
          split at hin
          · exact Or.inl hin
          · rcases List.mem_append.mp hin with hin | hin
            · exact Or.inl hin
            · simp only [List.mem_singleton] at hin
              subst hin
              exact Or.inr ⟨e, List.mem_cons_self _ _, hmt, hmm⟩
        · exact Or.inr ⟨e', List.mem_cons_of_mem _ he', hmt', hme⟩
      · rw [if_neg hmt] at hm
        rcases ih acc m hm with hin | ⟨e', he', hmt', hme⟩
        · exact Or.inl hin
        · exact Or.inr ⟨e', List.mem_cons_of_mem _ he', hmt', hme⟩

theorem filter_id_not_mem (l : List (Nat × HttpRouteE)) (id : Nat) :
    id ∉ (l.filter fun e => e.1 ≠ id).map (·.1) := by
  intro hmem
  obtain ⟨e, he, heid⟩ := List.mem_map.mp hmem
  have := (List.mem_filter.mp he).2
  rw [heid] at this
  simp at this

/-- C4: disposing a route's scope removes its `httpRoutes` entry and its
hook-chain entry together, stably (the other entries keep their relative
order and membership); a freshly registered route's disposal restores the
previous state; after disposal the route is invisible to dispatch (its id
is never invoked, and the first middleware invoked is the earliest
eligible match among the remaining hooks, so requests fall through to the
next candidate or to the 404/405 default); and its method survives in the
computed `Allow` set only if another matching route carries it. -/
theorem disposal_c4 (s : ServerState) (id : Nat) :
    (id ∉ (s.dispose id).httpRoutes.map (·.1)
      ∧ id ∉ (s.dispose id).routeHooks.map (·.1))
    ∧ ((s.dispose id).httpRoutes.Sublist s.httpRoutes
      ∧ (s.dispose id).routeHooks.Sublist s.routeHooks)
    ∧ (∀ e ∈ s.httpRoutes, e.1 ≠ id → e ∈ (s.dispose id).httpRoutes)
    ∧ (∀ e ∈ s.routeHooks, e.1 ≠ id → e ∈ (s.dispose id).routeHooks)
    ∧ (∀ r : HttpRouteE, id ∉ s.httpRoutes.map (·.1) → id ∉ s.routeHooks.map (·.1) →
        (s.register id r).dispose id = s)
    ∧ (∀ req res resp res' inv rd,
        runRouteStage (s.dispose id).routeHooks (s.dispose id).httpRoutes req res
          = RouteOutcome.done resp res' inv rd →
        inv.head? = firstEligible (s.routeHooks.filter fun e => e.1 ≠ id) req
          ∧ id ∉ inv)
    ∧ (∀ req m,
        (∀ e ∈ s.httpRoutes, e.1 ≠ id → matchesPath e.2 req = true →
          e.2.method ≠ some m) →
        m ∉ specMethods (s.dispose id).httpRoutes req) := by
  refine ⟨⟨filter_id_not_mem _ id, filter_id_not_mem _ id⟩,
    ⟨List.filter_sublist _, List.filter_sublist _⟩, ?_, ?_, ?_, ?_, ?_⟩
  · intro e he hne
    exact List.mem_filter.mpr ⟨he, by simp [hne]⟩
  · intro e he hne
    exact List.mem_filter.mpr ⟨he, by simp [hne]⟩
  · intro r h1 h2
    have hfil : ∀ l : List (Nat × HttpRouteE), id ∉ l.map (·.1) →
        (l ++ [(id, r)]).filter (fun e => e.1 ≠ id) = l := by
      intro l hl
      rw [List.filter_append]
      have h3 : l.filter (fun e => e.1 ≠ id) = l :=
        List.filter_eq_self.mpr fun e he => by
          simp only [ne_eq, decide_not]
          have : e.1 ≠ id := fun hc => hl (List.mem_map.mpr ⟨e, he, hc⟩)
          simp [this]
      have h4 : ([(id, r)] : List (Nat × HttpRouteE)).filter (fun e => e.1 ≠ id) = [] := by
        simp
      rw [h3, h4, List.append_nil]
    simp only [ServerState.dispose, ServerState.register]
    rw [hfil s.httpRoutes h1, hfil s.routeHooks h2]
  · intro req res resp res' inv rd h
    refine ⟨stage_invoked_head _ _ req res resp res' inv rd h, ?_⟩
    intro hid
    exact filter_id_not_mem s.routeHooks id
      (stage_invoked_ids _ _ req res resp res' inv rd h id hid)
  · intro req m hother hmem
    rcases specMethodsAux_mem _ req [] m hmem with hin | ⟨e, he, hmt, hme⟩
    · cases hin
    · have he' := List.mem_filter.mp he
      have hne : e.1 ≠ id := by simpa using he'.2
      exact hother e he'.1 hne hmt hme

/-- A one-route state for the disposal scenario. -/
def disposalState : ServerState :=
  { httpRoutes := [(0, sampleGetX)], routeHooks := [(0, sampleGetX)] }

/-- Closed instance of the disposal claim: disposing the only `GET /x`
route makes a fresh registration round-trip, leaves dispatch of `GET /x`
to the 404/405 default, and removes `GET` from the computed method set. -/
theorem disposal_c4_witness :
    (0 ∉ (ServerState.mk [] []).httpRoutes.map (·.1))
    ∧ ((ServerState.mk [] []).register 0 sampleGetX).dispose 0 = ServerState.mk [] []
    ∧ runRouteStage (disposalState.dispose 0).routeHooks
        (disposalState.dispose 0).httpRoutes sampleReqGetX Response.init
        = RouteOutcome.done none (Response.init.setStatus 404) [] true
    ∧ ([] : List Nat).head?
        = firstEligible (disposalState.routeHooks.filter fun e => e.1 ≠ 0) sampleReqGetX
    ∧ (∀ e ∈ disposalState.httpRoutes, e.1 ≠ 0 → matchesPath e.2 sampleReqGetX = true →
        e.2.method ≠ some ("GET"))
    ∧ "GET" ∉ specMethods (disposalState.dispose 0).httpRoutes sampleReqGetX := by
  refine ⟨by simp, ?_, rfl, ?_, ?_, ?_⟩
  · exact (disposal_c4 (ServerState.mk [] []) 0).2.2.2.2.1 sampleGetX (by simp) (by simp)
  · exact ((disposal_c4 disposalState 0).2.2.2.2.2.1 sampleReqGetX Response.init
      none (Response.init.setStatus 404) [] true rfl).1
  · intro e he hne
    simp only [disposalState, List.mem_singleton] at he
    subst he
    exact absurd rfl hne
  · exact (disposal_c4 disposalState 0).2.2.2.2.2.2 sampleReqGetX ("GET")
      (by
        intro e he hne
        simp only [disposalState, List.mem_singleton] at he
        subst he
        exact absurd rfl hne)

/-! ### WebSocket fallback -/

theorem wsThrows_not_accepts (r : WsRouteE) (req : Request)
    (h : wsThrows r req = true) : wsAccepts r req = false := by
  unfold wsThrows at h
  unfold wsAccepts
  rcases hp : wsParams r req with _ | p
  · simp [hp] at h
  · rcases hh : r.handle with _ | f
    · simp [hp, hh] at h
    · rcases hf : f p with _ | _ | _
      · simp [hp, hh, hf] at h
      · simp [hp, hh, hf] at h
      · simp [hp, hh, hf]

theorem wsScan_error_throw (routes : List (Nat × WsRouteE)) (req : Request)
    (h : wsScan routes req = .error ()) :
    ∃ e ∈ routes, checkThrows e.2.path req = true := by
  induction routes with
  | nil => exact absurd h (by simp [wsScan])
  | cons e rest ih =>
    obtain ⟨i, r⟩ := e
    unfold wsScan at h
    split at h
    next heq =>
      exact ⟨(i, r), List.mem_cons_self _ _, by unfold checkThrows; rw [heq]⟩
    next heq =>
      obtain ⟨e', he', ht⟩ := ih h
      exact ⟨e', List.mem_cons_of_mem _ he', ht⟩
    next p heq =>
      split at h
      · have : wsScan rest req = .error () := by
          cases hrec : wsScan rest req with
          | error u => rfl
          | ok w' => rw [hrec] at h; exact absurd h (by simp [Except.map])
        obtain ⟨e', he', ht⟩ := ih this
        exact ⟨e', List.mem_cons_of_mem _ he', ht⟩
      · split at h <;>
        · have : wsScan rest req = .error () := by
            cases hrec : wsScan rest req with
            | error u => rfl
            | ok w' => rw [hrec] at h; exact absurd h (by simp [Except.map])
          obtain ⟨e', he', ht⟩ := ih this
          exact ⟨e', List.mem_cons_of_mem _ he', ht⟩

theorem wsScan_ok_exists (routes : List (Nat × WsRouteE)) (req : Request)
    (h : ∀ e ∈ routes, checkThrows e.2.path req = false) :
    ∃ w, wsScan routes req = .ok w := by
  cases hs : wsScan routes req with
  | ok w => exact ⟨w, rfl⟩
  | error u =>
    obtain ⟨e', he', ht⟩ := wsScan_error_throw routes req (by rw [hs])
    rw [h e' he'] at ht
    cases ht

theorem wsScan_char (routes : List (Nat × WsRouteE)) (req : Request) :
    ∀ w, wsScan routes req = .ok w →
      w.accepted = (routes.any fun e => wsAccepts e.2 req)
      ∧ w.logged = ((routes.filter fun e => wsThrows e.2 req).map (·.1))
      ∧ w.invoked = ((routes.filter fun e => wsInvoked e.2 req).map (·.1)) := by
  induction routes with
  | nil =>
    intro w hw
    injection hw with hw
    subst hw
    exact ⟨rfl, rfl, rfl⟩
  | cons e rest ih =>
    intro w hw
    obtain ⟨i, r⟩ := e
    unfold wsScan at hw
    split at hw
    · exact absurd hw (by simp)
    next heq =>
      have hpn : wsParams r req = none := by unfold wsParams; rw [heq]
      obtain ⟨h1, h2, h3⟩ := ih w hw
      have hacc : wsAccepts r req = false := by simp [wsAccepts, hpn]
      have hthr : wsThrows r req = false := by simp [wsThrows, hpn]
      have hinv : wsInvoked r req = false := by simp [wsInvoked, hpn]
      refine ⟨?_, ?_, ?_⟩
      · rw [h1, List.any_cons, hacc]
        rfl
      · rw [h2, List.filter_cons_of_neg (by simp [hthr])]
      · rw [h3, List.filter_cons_of_neg (by simp [hinv])]
    next p heq =>
      have hps : wsParams r req = some p := by unfold wsParams; rw [heq]
      split at hw
      next hh =>
        cases hrec : wsScan rest req with
        | error u => rw [hrec] at hw; exact absurd hw (by simp [Except.map])
        | ok w' =>
          rw [hrec] at hw
          simp only [Except.map] at hw
          injection hw with hw
          subst hw
          obtain ⟨h1, h2, h3⟩ := ih w' hrec
          have hacc : wsAccepts r req = true := by simp [wsAccepts, hps, hh]
          have hthr : wsThrows r req = false := by simp [wsThrows, hps, hh]
          have hinv : wsInvoked r req = false := by
            simp [wsInvoked, hps, hh]
          refine ⟨?_, ?_, ?_⟩
          · rw [List.any_cons, hacc]
            rfl
          · rw [List.filter_cons_of_neg (by simp [hthr])]
            exact h2
          · rw [List.filter_cons_of_neg (by simp [hinv])]
            exact h3
      next f hh =>
        have hinv : wsInvoked r req = true := by
          simp [wsInvoked, hps, hh]
        split at hw
        next hf =>
          cases hrec : wsScan rest req with
          | error u => rw [hrec] at hw; exact absurd hw (by simp [Except.map])
          | ok w' =>
            rw [hrec] at hw
            simp only [Except.map] at hw
            injection hw with hw
            subst hw
            obtain ⟨h1, h2, h3⟩ := ih w' hrec
            have hacc : wsAccepts r req = true := by
              simp [wsAccepts, hps, hh, hf]
            have hthr : wsThrows r req = false := by
              simp [wsThrows, hps, hh, hf]
            refine ⟨?_, ?_, ?_⟩
            · rw [List.any_cons, hacc]
              rfl
            · rw [List.filter_cons_of_neg (by simp [hthr])]
              exact h2
            · rw [List.filter_cons_of_pos (by simp [hinv])]
              rw [h3]
              rfl
        next hf =>
          cases hrec : wsScan rest req with
          | error u => rw [hrec] at hw; exact absurd hw (by simp [Except.map])
          | ok w' =>
            rw [hrec] at hw
            simp only [Except.map] at hw
            injection hw with hw
            subst hw
            obtain ⟨h1, h2, h3⟩ := ih w' hrec
            have hacc : wsAccepts r req = false := by
              simp [wsAccepts, hps, hh, hf]
            have hthr : wsThrows r req = false := by
              simp [wsThrows, hps, hh, hf]
            refine ⟨?_, ?_, ?_⟩
            · rw [List.any_cons, hacc, h1]
              rfl
            · rw [List.filter_cons_of_neg (by simp [hthr])]
              exact h2
            · rw [List.filter_cons_of_pos (by simp [hinv])]
              rw [h3]
              rfl
        next hf =>
          cases hrec : wsScan rest req with
          | error u => rw [hrec] at hw; exact absurd hw (by simp [Except.map])
          | ok w' =>
            rw [hrec] at hw
            simp only [Except.map] at hw
            injection hw with hw
            subst hw
            obtain ⟨h1, h2, h3⟩ := ih w' hrec
            have hacc : wsAccepts r req = false := by
              simp [wsAccepts, hps, hh, hf]
            have hthr : wsThrows r req = true := by
              simp [wsThrows, hps, hh, hf]
            refine ⟨?_, ?_, ?_⟩
            · rw [List.any_cons, hacc, h1]
              rfl
            · rw [List.filter_cons_of_pos (by simp [hthr])]
              rw [h2]
              rfl
            · rw [List.filter_cons_of_pos (by simp [hinv])]
              rw [h3]
              rfl

/-- C9: during a WebSocket upgrade, a throwing accept callback is logged
and treated as that route declining (it never contributes an acceptance
and the scan still completes whenever the matchers themselves do not
throw); every matching route's accept callback receives the upgrade
opportunity, so later candidates accept even when earlier candidates
decline or throw; and when every registered `WsRoute` declines, the
upgrade resolves `false` and the socket is closed. -/
theorem ws_fallback_c9 (routes : List (Nat × WsRouteE)) (req : Request) :
    ((∀ e ∈ routes, checkThrows e.2.path req = false) →
        ∃ w, wsScan routes req = .ok w)
    ∧ ∀ w, wsScan routes req = .ok w →
        w.accepted = (routes.any fun e => wsAccepts e.2 req)
        ∧ (∀ e ∈ routes, wsThrows e.2 req = true →
            e.1 ∈ w.logged ∧ wsAccepts e.2 req = false)
        ∧ (∀ e ∈ routes, wsInvoked e.2 req = true → e.1 ∈ w.invoked)
        ∧ ((∀ e ∈ routes, wsAccepts e.2 req = false) → w.accepted = false) := by
  refine ⟨wsScan_ok_exists routes req, ?_⟩
  intro w hw
  obtain ⟨h1, h2, h3⟩ := wsScan_char routes req w hw
  refine ⟨h1, ?_, ?_, ?_⟩
  · intro e he ht
    constructor
    · rw [h2]
      exact List.mem_map.mpr ⟨e, List.mem_filter.mpr ⟨he, ht⟩, rfl⟩
    · exact wsThrows_not_accepts e.2 req ht
  · intro e he hi
    rw [h3]
    exact List.mem_map.mpr ⟨e, List.mem_filter.mpr ⟨he, hi⟩, rfl⟩
  · intro hall
    rw [h1]
    exact List.any_eq_false.mpr fun e he => by rw [hall e he]; exact Bool.false_ne_true

/-- A declining ws route on `/ws`. -/
def wsDeclRoute : WsRouteE :=
  { path := PathSpec.pattern [Token.text ("/ws")], handle := some fun _ => WsDecision.decline }

/-- A throwing ws route on `/ws`. -/
def wsThrowRoute : WsRouteE :=
  { path := PathSpec.pattern [Token.text ("/ws")], handle := some fun _ => WsDecision.throwErr }

/-- An accepting ws route on `/ws`. -/
def wsAcceptRoute : WsRouteE :=
  { path := PathSpec.pattern [Token.text ("/ws")], handle := some fun _ => WsDecision.accept }

/-- Three overlapping ws routes: decline, throw, accept. -/
def wsRoutes3 : List (Nat × WsRouteE) :=
  [(1, wsDeclRoute), (2, wsThrowRoute), (3, wsAcceptRoute)]

/-- An upgrade request for `/ws`. -/
def reqWs : Request := { url := "/ws", method := "GET" }

/-- The scan result for the three-route fallback scenario. -/
def wsResult3 : WsResult := { accepted := true, logged := [2], invoked := [1, 2, 3] }

/-- Closed instance of the WebSocket fallback claim: with decline, throw,
accept registered in that order, the upgrade is accepted, the thrown
error is logged, and all three callbacks received the upgrade. -/
theorem ws_fallback_c9_witness :
    wsScan wsRoutes3 reqWs = .ok wsResult3
    ∧ wsResult3.accepted = (wsRoutes3.any fun e => wsAccepts e.2 reqWs)
    ∧ (wsThrows wsThrowRoute reqWs = true
        ∧ 2 ∈ wsResult3.logged ∧ wsAccepts wsThrowRoute reqWs = false)
    ∧ (wsInvoked wsAcceptRoute reqWs = true ∧ 3 ∈ wsResult3.invoked) := by
  have hthrow : wsThrows wsThrowRoute reqWs = true := rfl
  have hinv : wsInvoked wsAcceptRoute reqWs = true := rfl
  refine ⟨rfl, ((ws_fallback_c9 wsRoutes3 reqWs).2 wsResult3 rfl).1, ?_, ?_⟩
  · exact ⟨hthrow, ((ws_fallback_c9 wsRoutes3 reqWs).2 wsResult3 rfl).2.1
      (2, wsThrowRoute) (by simp [wsRoutes3]) hthrow⟩
  · exact ⟨hinv, ((ws_fallback_c9 wsRoutes3 reqWs).2 wsResult3 rfl).2.2.1
      (3, wsAcceptRoute) (by simp [wsRoutes3]) hinv⟩

/-! ### Capture decoding -/

theorem mapM_option_forall2 {α β : Type} (f : α → Option β) :
    ∀ (l : List α) (l' : List β), l.mapM f = some l' →
      List.Forall₂ (fun a b => f a = some b) l l' := by
  intro l
  induction l with
  | nil =>
    intro l' h
    rw [List.mapM_nil] at h
    injection h with h
    subst h
    exact List.Forall₂.nil
  | cons a l ih =>
    intro l' h
    rw [List.mapM_cons] at h
    cases hfa : f a with
    | none => rw [hfa] at h; simp at h
    | some b =>
      rw [hfa] at h
      cases hml : l.mapM f with
      | none => rw [hml] at h; simp at h
      | some bs =>
        rw [hml] at h
        simp only [Option.pure_def, Option.bind_some, Option.bind_eq_bind] at h
        injection h with h
        subst h
        exact List.Forall₂.cons hfa (ih bs hml)

theorem check_pattern_inv (toks : List Token) (req : Request)
    (ps : List (String × String))
    (h : Route.check (PathSpec.pattern toks) req = .ok (some (Params.named ps))) :
    ∃ raw, matchToks toks req.url.toList = some raw
      ∧ List.Forall₂ (fun rv pv => rv.1 = pv.1 ∧ decodeParam rv.2 = some pv.2)
          raw ps := by
  simp only [Route.check] at h
  split at h
  · exact absurd h (by simp)
  next raw heq =>
    split at h
    next ps' heq2 =>
      simp only [Except.ok.injEq, Option.some.injEq, Params.named.injEq] at h
      subst h
      refine ⟨raw, heq, ?_⟩
      refine (mapM_option_forall2 _ raw ps' heq2).imp ?_
      intro rv pv hf
      cases hd : decodeParam rv.2 with
      | none => rw [hd] at hf; simp at hf
      | some d =>
        rw [hd] at hf
        simp only [Option.map_some'] at hf
        injection hf with hf
        rw [← hf]
        exact ⟨rfl, rfl⟩
    · exact absurd h (by simp)

/-- C5: for string-pattern routes, every captured value in a successful
`check` is exactly `decodeURIComponent` of the raw capture with `+`
replaced by a space; the transformation touches captured values only (a
percent-encoded literal segment does not match); and the spec's two
examples hold: `/users/:id` on `/users/42%20a` yields `id = "42 a"` and
`/files/*rest` on `/files/a/b/c` yields `rest = "a/b/c"`. -/
theorem param_decoding_c5 :
    (∀ (toks : List Token) (req : Request) (ps : List (String × String)),
        Route.check (PathSpec.pattern toks) req = .ok (some (Params.named ps)) →
        ∃ raw, matchToks toks req.url.toList = some raw
          ∧ List.Forall₂ (fun rv pv => rv.1 = pv.1 ∧ decodeParam rv.2 = some pv.2)
              raw ps)
    ∧ (∀ m : String, Route.check (PathSpec.pattern [Token.text ("/users")])
        { url := "/%75sers", method := m } = .ok none)
    ∧ (∀ m : String,
        Route.check (PathSpec.pattern [Token.text ("/users/"), Token.param ("id")])
          { url := "/users/42%20a", method := m }
          = .ok (some (Params.named [(("id"), ("42 a"))])))
    ∧ (∀ m : String,
        Route.check (PathSpec.pattern [Token.text ("/files/"), Token.wildcard ("rest")])
          { url := "/files/a/b/c", method := m }
          = .ok (some (Params.named [(("rest"), ("a/b/c"))]))) :=
  ⟨check_pattern_inv, fun _ => rfl, fun _ => rfl, fun _ => rfl⟩

/-- Closed instance of the capture-decoding claim at the `/users/:id`
example. -/
theorem param_decoding_c5_witness :
    Route.check (PathSpec.pattern [Token.text ("/users/"), Token.param ("id")])
      { url := "/users/42%20a", method := "GET" }
      = .ok (some (Params.named [(("id"), ("42 a"))]))
    ∧ ∃ raw, matchToks [Token.text ("/users/"), Token.param ("id")]
        ("/users/42%20a").toList = some raw
      ∧ List.Forall₂ (fun rv pv => rv.1 = pv.1 ∧ decodeParam rv.2 = some pv.2)
          raw [(("id"), ("42 a"))] :=
  ⟨rfl, param_decoding_c5.1 [Token.text ("/users/"), Token.param ("id")]
    { url := "/users/42%20a", method := "GET" } [(("id"), ("42 a"))] rfl⟩

/-! ### Matching operates on the raw URL -/

theorem splitsAll_append (cs : List Char) :
    ∀ p ∈ splitsAll cs, p.1 ++ p.2 = cs := by
  induction cs with
  | nil =>
    intro p hp
    simp only [splitsAll, List.mem_singleton] at hp
    subst hp
    rfl
  | cons c cs ih =>
    intro p hp
    simp only [splitsAll, List.mem_cons, List.mem_map] at hp
    rcases hp with hp | ⟨q, hq, hpq⟩
    · subst hp
      rfl
    · subst hpq
      simp only [List.cons_append, List.cons.injEq, true_and]
      exact ih q hq

theorem paramSplits_append (cs : List Char) :
    ∀ p ∈ paramSplits cs, p.1 ++ p.2 = cs := by
  intro p hp
  unfold paramSplits at hp
  rw [List.mem_reverse] at hp
  exact splitsAll_append cs p (List.mem_filter.mp hp).1

theorem wildSplits_append (cs : List Char) :
    ∀ p ∈ wildSplits cs, p.1 ++ p.2 = cs := by
  intro p hp
  unfold wildSplits at hp
  rw [List.mem_reverse] at hp
  exact splitsAll_append cs p (List.mem_filter.mp hp).1

theorem stripLit_append (p : List Char) :
    ∀ cs r, stripLit p cs = some r → cs = p ++ r := by
  induction p with
  | nil =>
    intro cs r h
    injection h with h
  | cons a p ih =>
    intro cs r h
    cases cs with
    | nil => exact absurd h (by simp [stripLit])
    | cons c cs =>
      unfold stripLit at h
      split at h
      next hac =>
        subst hac
        rw [ih cs r h]
        rfl
      · exact absurd h (by simp)

theorem findSome_mem {α β : Type} (f : α → Option β) (l : List α) (b : β)
    (h : l.findSome? f = some b) : ∃ a ∈ l, f a = some b := by
  obtain ⟨l₁, a, l₂, rfl, hfa, _⟩ := List.findSome?_eq_some_iff.mp h
  exact ⟨a, List.mem_append_right _ (List.mem_cons_self _ _), hfa⟩

/-- Literal characters of a token list. -/
def litChars (toks : List Token) (c : Char) : Prop :=
  ∃ s, Token.text s ∈ toks ∧ c ∈ s.toList

theorem matchToks_chars (toks : List Token) :
    ∀ cs raw, matchToks toks cs = some raw → ∀ c ∈ cs,
      litChars toks c ∨ (∃ rv ∈ raw, c ∈ rv.2.toList) ∨ c = '/' := by
  induction toks with
  | nil =>
    intro cs raw h c hc
    unfold matchToks at h
    split at h
    next hcs =>
      rcases hcs with hcs | hcs
      · subst hcs
        exact absurd hc (by simp)
      · subst hcs
        simp only [List.mem_singleton] at hc
        exact Or.inr (Or.inr hc)
    · exact absurd h (by simp)
  | cons t toks ih =>
    intro cs raw h c hc
    cases t with
    | text s =>
      unfold matchToks at h
      split at h
      next rest hstrip =>
        rw [stripLit_append s.toList cs rest hstrip] at hc
        rcases List.mem_append.mp hc with hc | hc
        · exact Or.inl ⟨s, List.mem_cons_self _ _, hc⟩
        · rcases ih rest raw h c hc with ⟨s', hs', hcs'⟩ | hrest
          · exact Or.inl ⟨s', List.mem_cons_of_mem _ hs', hcs'⟩
          · exact Or.inr hrest
      · exact absurd h (by simp)
    | param n =>
      unfold matchToks at h
      obtain ⟨pr, hpr, hf⟩ := findSome_mem _ _ raw h
      cases hmt : matchToks toks pr.2 with
      | none => rw [hmt] at hf; exact absurd hf (by simp)
      | some raw' =>
        rw [hmt] at hf
        simp only [Option.map_some'] at hf
        injection hf with hf
        subst hf
        rw [← paramSplits_append cs pr hpr] at hc
        rcases List.mem_append.mp hc with hc | hc
        · exact Or.inr (Or.inl ⟨(n, (⟨pr.1⟩ : String)), List.mem_cons_self _ _, hc⟩)
        · rcases ih pr.2 raw' hmt c hc with ⟨s', hs', hcs'⟩ | ⟨rv, hrv, hcrv⟩ | hsl
          · exact Or.inl ⟨s', List.mem_cons_of_mem _ hs', hcs'⟩
          · exact Or.inr (Or.inl ⟨rv, List.mem_cons_of_mem _ hrv, hcrv⟩)
          · exact Or.inr (Or.inr hsl)
    | wildcard n =>
      unfold matchToks at h
      obtain ⟨pr, hpr, hf⟩ := findSome_mem _ _ raw h
      cases hmt : matchToks toks pr.2 with
      | none => rw [hmt] at hf; exact absurd hf (by simp)
      | some raw' =>
        rw [hmt] at hf
        simp only [Option.map_some'] at hf
        injection hf with hf
        subst hf
        rw [← wildSplits_append cs pr hpr] at hc
        rcases List.mem_append.mp hc with hc | hc
        · exact Or.inr (Or.inl ⟨(n, (⟨pr.1⟩ : String)), List.mem_cons_self _ _, hc⟩)
        · rcases ih pr.2 raw' hmt c hc with ⟨s', hs', hcs'⟩ | ⟨rv, hrv, hcrv⟩ | hsl
          · exact Or.inl ⟨s', List.mem_cons_of_mem _ hs', hcs'⟩
          · exact Or.inr (Or.inl ⟨rv, List.mem_cons_of_mem _ hrv, hcrv⟩)
          · exact Or.inr (Or.inr hsl)

theorem uriUnits_qmark (cs : List Char) :
    ∀ us, uriUnits cs = some us → '?' ∈ cs → UriUnit.raw '?' ∈ us := by
  induction cs using uriUnits.induct with
  | case1 =>
    intro us _ hq
    exact absurd hq (by simp)
  | case2 h l rest2 hv lv hexl hexh ih =>
    intro us hh hq
    simp only [uriUnits, reduceIte, hexh, hexl] at hh
    cases hrec : uriUnits rest2 with
    | none => rw [hrec] at hh; exact absurd hh (by simp)
    | some us' =>
      rw [hrec] at hh
      simp only [Option.map_some'] at hh
      injection hh with hh
      subst hh
      simp only [List.mem_cons] at hq
      rcases hq with hq | hq | hq | hq
      · exact absurd hq (by decide)
      · subst hq
        have : hexVal '?' = none := rfl
        rw [this] at hexh
        cases hexh
      · subst hq
        have : hexVal '?' = none := rfl
        rw [this] at hexl
        cases hexl
      · exact List.mem_cons_of_mem _ (ih us' hrec hq)
  | case3 h l rest2 hfail =>
    intro us hh hq
    simp only [uriUnits, reduceIte] at hh
    exact absurd hh (by simp)
  | case4 rest hshort =>
    intro us hh hq
    simp only [uriUnits, reduceIte] at hh
    exact absurd hh (by simp)
  | case5 c rest hc ih =>
    intro us hh hq
    rw [uriUnits.eq_def] at hh
    simp only [if_neg hc] at hh
    cases hrec : uriUnits rest with
    | none => rw [hrec] at hh; exact absurd hh (by simp)
    | some us' =>
      rw [hrec] at hh
      simp only [Option.map_some'] at hh
      injection hh with hh
      subst hh
      simp only [List.mem_cons] at hq
      rcases hq with hq | hq
      · subst hq
        exact List.mem_cons_self _ _
      · exact List.mem_cons_of_mem _ (ih us' hrec hq)

theorem utf8Units_qmark :
    ∀ (fuel : Nat) (us : List UriUnit) (out : List Char),
      utf8Units fuel us = some out → UriUnit.raw '?' ∈ us → '?' ∈ out := by
  intro fuel
  induction fuel with
  | zero =>
    intro us out h hmem
    cases us with
    | nil => exact absurd hmem (by simp)
    | cons u rest => exact absurd h (by simp [utf8Units])
  | succ f ih =>
    intro us out h hmem
    cases us with
    | nil => exact absurd hmem (by simp)
    | cons u rest =>
      cases u with
      | raw c =>
        simp only [utf8Units] at h
        cases hrec : utf8Units f rest with
        | none => rw [hrec] at h; exact absurd h (by simp)
        | some out' =>
          rw [hrec] at h
          simp only [Option.map_some'] at h
          injection h with h
          subst h
          simp only [List.mem_cons] at hmem
          rcases hmem with hmem | hmem
          · injection hmem with hmem
            subst hmem
            exact List.mem_cons_self _ _
          · exact List.mem_cons_of_mem _ (ih rest out' hrec hmem)
      | byte b =>
        have hmem' : UriUnit.raw '?' ∈ rest := by
          simp only [List.mem_cons] at hmem
          rcases hmem with hmem | hmem
          · cases hmem
          · exact hmem
        simp only [utf8Units] at h
        split at h
        · cases hrec : utf8Units f rest with
          | none => rw [hrec] at h; exact absurd h (by simp)
          | some out' =>
            rw [hrec] at h
            simp only [Option.map_some'] at h
            injection h with h
            subst h
            exact List.mem_cons_of_mem _ (ih rest out' hrec hmem')
        · split at h
          · split at h
            next b2 rest2 =>
              split at h
              · cases hrec : utf8Units f rest2 with
                | none => rw [hrec] at h; exact absurd h (by simp)
                | some out' =>
                  rw [hrec] at h
                  simp only [Option.map_some'] at h
                  injection h with h
                  subst h
                  have hm2 : UriUnit.raw '?' ∈ rest2 := by
                    simp only [List.mem_cons] at hmem'
                    rcases hmem' with hx | hx
                    · cases hx
                    · exact hx
                  exact List.mem_cons_of_mem _ (ih rest2 out' hrec hm2)
              · exact absurd h (by simp)
            · exact absurd h (by simp)
          · split at h
            · split at h
              next b2 b3 rest2 =>
                split at h
                · split at h
                  · cases hrec : utf8Units f rest2 with
                    | none => rw [hrec] at h; exact absurd h (by simp)
                    | some out' =>
                      rw [hrec] at h
                      simp only [Option.map_some'] at h
                      injection h with h
                      subst h
                      have hm2 : UriUnit.raw '?' ∈ rest2 := by
                        simp only [List.mem_cons] at hmem'
                        rcases hmem' with hx | hx | hx
                        · cases hx
                        · cases hx
                        · exact hx
                      exact List.mem_cons_of_mem _ (ih rest2 out' hrec hm2)
                  · exact absurd h (by simp)
                · exact absurd h (by simp)
              · exact absurd h (by simp)
            · split at h
              · split at h
                next b2 b3 b4 rest2 =>
                  split at h
                  · split at h
                    · cases hrec : utf8Units f rest2 with
                      | none => rw [hrec] at h; exact absurd h (by simp)
                      | some out' =>
                        rw [hrec] at h
                        simp only [Option.map_some'] at h
                        injection h with h
                        subst h
                        have hm2 : UriUnit.raw '?' ∈ rest2 := by
                          simp only [List.mem_cons] at hmem'
                          rcases hmem' with hx | hx | hx | hx
                          · cases hx
                          · cases hx
                          · cases hx
                          · exact hx
                        exact List.mem_cons_of_mem _ (ih rest2 out' hrec hm2)
                    · exact absurd h (by simp)
                  · exact absurd h (by simp)
                · exact absurd h (by simp)
              · exact absurd h (by simp)

theorem decodeParam_qmark (v d : String) (h : decodeParam v = some d)
    (hq : '?' ∈ v.toList) : '?' ∈ d.toList := by
  unfold decodeParam decodeURIComponent at h
  have hqp : '?' ∈ (plusToSpace v).toList := by
    show '?' ∈ v.toList.map fun c => if c = '+' then ' ' else c
    exact List.mem_map.mpr ⟨'?', hq, by decide⟩
  cases hus : uriUnits (plusToSpace v).toList with
  | none => rw [hus] at h; exact absurd h (by simp)
  | some us =>
    rw [hus] at h
    simp only [Option.some_bind] at h
    cases hout : utf8Units us.length us with
    | none => rw [hout] at h; exact absurd h (by simp)
    | some out =>
      rw [hout] at h
      simp only [Option.map_some'] at h
      injection h with h
      subst h
      exact utf8Units_qmark us.length us out hout
        (uriUnits_qmark (plusToSpace v).toList us hus hqp)

theorem forall2_mem_left {α β : Type} {R : α → β → Prop} :
    ∀ {l1 : List α} {l2 : List β}, List.Forall₂ R l1 l2 →
      ∀ a ∈ l1, ∃ b ∈ l2, R a b := by
  intro l1
  induction l1 with
  | nil =>
    intro l2 _ a ha
    exact absurd ha (by simp)
  | cons x l ih =>
    intro l2 hf a ha
    cases hf with
    | cons hxy hrest =>
      rcases List.mem_cons.mp ha with ha | ha
      · subst ha
        exact ⟨_, List.mem_cons_self _ _, hxy⟩
      · obtain ⟨b, hb, hr⟩ := ih hrest a ha
        exact ⟨b, List.mem_cons_of_mem _ hb, hr⟩

/-- C10 (implicit): `Route.check` runs the compiled matcher on the raw
`req.url` (no query/fragment stripping): the result depends on the
request only through its `url` string; for any string pattern whose
literal segments contain no `?`, a URL containing a query string either
fails to match or leaves query text inside some captured parameter value;
concretely `/users/:id` against `/users/42?x=1` captures
`id = "42?x=1"`, while `/x` against `/x?y=1` does not match. -/
theorem raw_url_matching_c10 :
    (∀ (p : PathSpec) (url m1 m2 : String),
        Route.check p { url := url, method := m1 }
          = Route.check p { url := url, method := m2 })
    ∧ (∀ (toks : List Token) (url m : String) (ps : List (String × String)),
        (∀ s, Token.text s ∈ toks → '?' ∉ s.toList) →
        '?' ∈ url.toList →
        Route.check (PathSpec.pattern toks) { url := url, method := m }
          = .ok (some (Params.named ps)) →
        ∃ pv ∈ ps, '?' ∈ pv.2.toList)
    ∧ (∀ m : String,
        Route.check (PathSpec.pattern [Token.text ("/users/"), Token.param ("id")])
          { url := "/users/42?x=1", method := m }
          = .ok (some (Params.named [(("id"), ("42?x=1"))])))
    ∧ (∀ m : String, Route.check (PathSpec.pattern [Token.text ("/x")])
        { url := "/x?y=1", method := m } = .ok none) := by
  refine ⟨?_, ?_, fun _ => rfl, fun _ => rfl⟩
  · intro p url m1 m2
    cases p <;> rfl
  · intro toks url m ps hlit hq hcheck
    obtain ⟨raw, hmt, hf2⟩ := check_pattern_inv toks _ ps hcheck
    rcases matchToks_chars toks url.toList raw hmt '?' hq with
      ⟨s, hs, hcs⟩ | ⟨rv, hrv, hcrv⟩ | habs
    · exact absurd hcs (hlit s hs)
    · obtain ⟨pv, hpv, hname, hdec⟩ := forall2_mem_left hf2 rv hrv
      exact ⟨pv, hpv, decodeParam_qmark rv.2 pv.2 hdec hcrv⟩
    · exact absurd habs (by decide)

/-- Closed instance of the raw-URL claim at `/users/:id` versus
`/users/42?x=1`. -/
theorem raw_url_matching_c10_witness :
    (∀ s, Token.text s ∈ [Token.text ("/users/"), Token.param ("id")] →
      '?' ∉ s.toList)
    ∧ '?' ∈ ("/users/42?x=1").toList
    ∧ ∃ pv ∈ [(("id"), ("42?x=1"))], '?' ∈ (Prod.snd pv).toList := by
  have hlit : ∀ s, Token.text s ∈ [Token.text ("/users/"), Token.param ("id")] →
      '?' ∉ s.toList := by
    intro s hs
    rcases List.mem_cons.mp hs with hs | hs
    · injection hs with hs
      subst hs
      decide
    · rcases List.mem_cons.mp hs with hs | hs
      · cases hs
      · exact absurd hs (by simp)
  refine ⟨hlit, by decide, ?_⟩
  exact raw_url_matching_c10.2.1 [Token.text ("/users/"), Token.param ("id")]
    ("/users/42?x=1") ("GET") [(("id"), ("42?x=1"))] hlit (by decide) rfl

end CordisServer
